import Mathlib

/-!
Shallow embedding of the rule aggregation and deduplication engine of
`pkg/rules/rules.go` (Thanos rules layer), together with proofs settling the
frozen claims about it.

Modelling conventions:
* Go slices become `List`, maps become association lists, in-place mutation
  becomes explicit state passing.
* The prometheus `labels.Matcher` collaborator is abstracted by a record
  carrying the label name and the boolean matching predicate (`Matches`).
* The `text/template` parse used by `matches` to detect literal label values
  is abstracted by a boolean predicate `isLiteral` on the value string; both
  the code and the specification use the same notion ("parses as a template
  with a single static text node"), so all theorems are parametric in it.
* Concurrency (the mutex in `rulesServer`) is not modelled: deliveries are
  embedded as a sequential state transition `rulesServer.Send`.
-/

/-- One label, as in prometheus `labels.Label`: a name/value pair of strings. -/
structure Label where
  name : String
  value : String
deriving DecidableEq, Repr

/-- Lexicographic strict comparison of character lists, modelling Go's `<` on
strings (byte-wise lexicographic order), used by `sort.Slice` in `dedupRules`. -/
def charListLt : List Char → List Char → Bool
  | [], [] => false
  | [], _ :: _ => true
  | _ :: _, [] => false
  | a :: as, b :: bs =>
    if a < b then true
    else if b < a then false
    else charListLt as bs

/-- Strict name order on strings used to sort rule labels. -/
def nameLt (s t : String) : Bool := charListLt s.data t.data

/-- Ordered insertion of a label by name, the building block of the sort that
`dedupRules` performs via `sort.Slice` with comparator `name < name`. -/
def insertLabel (a : Label) : List Label → List Label
  | [] => [a]
  | x :: xs => if nameLt x.name a.name then x :: insertLabel a xs else a :: x :: xs

/-- Sorting of a rule's labels by name (`sort.Slice` in `dedupRules`). The Go
sort is an unspecified-order comparison sort over the `<` comparator; we model
it with insertion sort, which agrees with it on label sets with distinct names
and is sorted by name in general. -/
def sortLabels : List Label → List Label
  | [] => []
  | a :: l => insertLabel a (sortLabels l)

/-- Modelled from the spec: payload of a recording rule (`rulespb.RecordingRule`,
generated protobuf code not under `src/`). It carries its labels plus the rest
of the rule content (name, query, timestamps), collapsed into one string field. -/
structure RecordingRule where
  labels : List Label
  data : String
deriving DecidableEq, Repr

/-- Modelled from the spec: payload of an alerting rule (`rulespb.Alert`,
generated protobuf code not under `src/`). It carries its labels plus the rest
of the alert content, collapsed into one string field. -/
structure Alert where
  labels : List Label
  data : String
deriving DecidableEq, Repr

/-- Modelled from the spec: `rulespb.Rule`, a oneof over the two rule variants. -/
inductive Rule
  | recording (r : RecordingRule)
  | alert (a : Alert)
deriving DecidableEq, Repr

/-- Modelled from the spec: the variant-specific deep comparison of recording
rules (`RecordingRule.Compare`), reporting Equal (0) or Different (nonzero). -/
def RecordingRule.Compare (a b : RecordingRule) : Int :=
  if a = b then 0 else 1

/-- Modelled from the spec: the variant-specific deep comparison of alerting
rules (`Alert.Compare`), reporting Equal (0) or Different (nonzero). -/
def Alert.Compare (a b : Alert) : Int :=
  if a = b then 0 else 1

/-- `rule.GetLabels()`: the labels of whichever variant is set. -/
def Rule.getLabels : Rule → List Label
  | .recording r => r.labels
  | .alert a => a.labels

/-- `rule.SetLabels()`: replace the labels of whichever variant is set. -/
def Rule.setLabels : Rule → List Label → Rule
  | .recording r, ls => .recording { r with labels := ls }
  | .alert a, ls => .alert { a with labels := ls }

/-- `rule.GetRecording()`: the recording payload, or none. -/
def Rule.getRecording : Rule → Option RecordingRule
  | .recording r => some r
  | .alert _ => none

/-- `rule.GetAlert()`: the alerting payload, or none. -/
def Rule.getAlert : Rule → Option Alert
  | .recording _ => none
  | .alert a => some a

/-- Canonical rendering of a label list, a component of `rule.String()`. -/
def encodeLabels (ls : List Label) : String :=
  ls.foldl (fun acc l => acc ++ l.name ++ "=" ++ l.value ++ ";") ""

/-- Modelled from the spec: `rule.String()`, the canonical identity string of a
rule's content (protobuf text rendering, generated code not under `src/`). -/
def ruleString : Rule → String
  | .recording r => "recording<" ++ encodeLabels r.labels ++ "|" ++ r.data ++ ">"
  | .alert a => "alert<" ++ encodeLabels a.labels ++ "|" ++ a.data ++ ">"

/-- A rule group (`rulespb.RuleGroup`): a name and an ordered rule sequence.
Other group fields (file, interval, ...) play no role in the aggregation code. -/
structure RuleGroup where
  name : String
  rules : List Rule
deriving DecidableEq, Repr

/-- The response payload `rulespb.RuleGroups`. -/
structure RuleGroups where
  groups : List RuleGroup
deriving DecidableEq, Repr

/-- A label matcher (prometheus `labels.Matcher`, an external collaborator):
a label name together with the boolean predicate `Matches` that its operator
(=, !=, =~, !~) and pattern denote on a label value. -/
structure Matcher where
  name : String
  matchFn : String → Bool

/-- `labels.Labels.Get`: the value of the first label with the given name, or
the empty string when absent. -/
def labelsGet (l : List Label) (n : String) : String :=
  match l.find? (fun lb => lb.name == n) with
  | some lb => lb.value
  | none => ""

/-- `matches` from rules.go (`matches` is a Lean keyword, hence the name): whether the non-templated labels satisfy all the
matchers in `matcherSets`. `isLiteral` abstracts the `text/template` check
"the value parses into a single static text node". -/
def matchesLabels (isLiteral : String → Bool) (matcherSets : List (List Matcher))
    (l : List Label) : Bool :=
  if matcherSets.isEmpty then true
  else
    let nonTemplatedLabels := l.filter (fun lb => isLiteral lb.value)
    matcherSets.all fun ms => ms.all fun m => m.matchFn (labelsGet nonTemplatedLabels m.name)

/-- The per-group body of `filterRules`: keep only the rules whose labels
satisfy the matcher sets (the in-place compaction loop over `g.Rules`). -/
def shrinkGroup (isLiteral : String → Bool) (matcherSets : List (List Matcher))
    (g : RuleGroup) : RuleGroup :=
  { g with rules := g.rules.filter (fun r => matchesLabels isLiteral matcherSets r.getLabels) }

/-- `filterRules` from rules.go: filter rules in each group according to the
matcher sets, then drop the groups left with no rules; both compactions keep
order. Empty matcher sets return the input unchanged. -/
def filterRules (isLiteral : String → Bool) (ruleGroups : List RuleGroup)
    (matcherSets : List (List Matcher)) : List RuleGroup :=
  if matcherSets.isEmpty then ruleGroups
  else
    ruleGroups.filterMap fun g =>
      let g' := shrinkGroup isLiteral matcherSets g
      if g'.rules.isEmpty then none else some g'

/-- Total number of rules across a group list. -/
def countRules (gs : List RuleGroup) : Nat :=
  (gs.map (fun g => g.rules.length)).sum

/-- `removeReplicaLabels` from rules.go: drop the labels whose name is in the
configured replica-label set. -/
def removeReplicaLabels (r : Rule) (replicaLabels : List String) : Rule :=
  r.setLabels (r.getLabels.filter (fun l => !replicaLabels.contains l.name))

/-- The per-rule normalisation performed at the top of `dedupRules`: remove the
replica labels, then sort the remaining labels by name. -/
def normalizeRule (replicaLabels : List String) (r : Rule) : Rule :=
  let r1 := removeReplicaLabels r replicaLabels
  r1.setLabels (sortLabels r1.getLabels)

/-- Lookup in the `seenRules` map (Go map keyed by the canonical string). -/
def lookupRule : List (String × Rule) → String → Option Rule
  | [], _ => none
  | (k, v) :: t, s => if k == s then some v else lookupRule t s

/-- Insertion/overwrite in the `seenRules` map (Go map assignment). -/
def insertRule : List (String × Rule) → String → Rule → List (String × Rule)
  | [], k, v => [(k, v)]
  | (k', v') :: t, k, v => if k' == k then (k, v) :: t else (k', v') :: insertRule t k v

/-- Whether both rules have recording payloads and those payloads compare as
Different (the first guarded branch of the duplicate check in `dedupRules`). -/
def recordingDiffers (existing r : Rule) : Bool :=
  match existing.getRecording, r.getRecording with
  | some e, some c => e.Compare c != 0
  | _, _ => false

/-- Whether both rules have alerting payloads and those payloads compare as
Different (the second guarded branch of the duplicate check in `dedupRules`). -/
def alertDiffers (existing r : Rule) : Bool :=
  match existing.getAlert, r.getAlert with
  | some e, some c => e.Compare c != 0
  | _, _ => false

/-- One iteration of the `dedupRules` walk: the state is the `seenRules` map
and the `uniqueRules` accumulator. Transcribed branch for branch from the Go
loop body (note that every branch appends the current rule). -/
def dedupStep (st : List (String × Rule) × List Rule) (r : Rule) :
    List (String × Rule) × List Rule :=
  let (seen, acc) := st
  match lookupRule seen (ruleString r) with
  | some existing =>
    if recordingDiffers existing r then (seen, acc ++ [r])
    else if alertDiffers existing r then (seen, acc ++ [r])
    else (insertRule seen (ruleString r) r, acc ++ [r])
  | none => (insertRule seen (ruleString r) r, acc ++ [r])

/-- `dedupRules` from rules.go: normalise every rule (replica labels removed,
labels sorted), then walk the rules tracking first-seen canonical identities. -/
def dedupRules (rules : List Rule) (replicaLabels : List String) : List Rule :=
  if rules.isEmpty then rules
  else
    let normalized := rules.map (normalizeRule replicaLabels)
    (normalized.foldl dedupStep ([], [])).2

/-- Mutation of the already-emitted group that shares the current group's name
(`existingGroup.Rules = append(existingGroup.Rules, g.Rules...)`, which updates
the aliased entry inside `uniqueGroups`). -/
def appendRules : List RuleGroup → String → List Rule → List RuleGroup
  | [], _, _ => []
  | h :: t, n, rs =>
    if h.name == n then { h with rules := h.rules ++ rs } :: t
    else h :: appendRules t n rs

/-- One iteration of the `dedupGroups` loop: if the group's name was already
seen, fold its rules into the recorded group, otherwise emit it and record it. -/
def insertGroupAcc (acc : List RuleGroup) (g : RuleGroup) : List RuleGroup :=
  if acc.any (fun h => h.name == g.name) then appendRules acc g.name g.rules
  else acc ++ [g]

/-- `dedupGroups` from rules.go: merge same-named groups, first-seen order. -/
def dedupGroups (groups : List RuleGroup) : List RuleGroup :=
  if groups.isEmpty then [] else groups.foldl insertGroupAcc []

/-- Modelled from the spec: `rulespb.RulesResponse`, a oneof over a group
result and a warning result (generated protobuf code not under `src/`); a
message may also carry neither (unset oneof). -/
inductive RulesResponse
  | group (g : RuleGroup)
  | warning (w : String)
  | empty
deriving DecidableEq, Repr

/-- `res.GetGroup()`: the group payload, or none for the other cases. -/
def RulesResponse.getGroup : RulesResponse → Option RuleGroup
  | .group g => some g
  | _ => none

/-- `res.GetWarning()`: the warning payload, or the empty string. -/
def RulesResponse.getWarning : RulesResponse → String
  | .warning w => w
  | _ => ""

/-- The `rulesServer` sink from rules.go: the context (reduced to its done
flag) and the accumulated warnings and groups. The mutex only serialises
concurrent `Send` calls and has no sequential content. -/
structure rulesServer where
  ctxDone : Bool
  warnings : List String
  groups : List RuleGroup
deriving DecidableEq, Repr

/-- `rulesServer.Send` from rules.go: a warning message is appended to the
warning list; a message with no group is rejected with error "no group"; a
group message is appended to the group list. -/
def rulesServer.Send (srv : rulesServer) (res : RulesResponse) :
    Except String rulesServer :=
  if res.getWarning != "" then
    .ok { srv with warnings := srv.warnings ++ [res.getWarning] }
  else
    match res.getGroup with
    | none => .error "no group"
    | some g => .ok { srv with groups := srv.groups ++ [g] }

/-- `rulespb.RulesRequest`, reduced to the field the aggregation layer reads. -/
structure RulesRequest where
  matcherString : List String

/-- `GRPCClient` from rules.go: holds the configured replica labels (the proxy
collaborator is passed explicitly to `GRPCClient.Rules` below). -/
structure GRPCClient where
  replicaLabels : List String

/-- The selector-compilation loop of `GRPCClient.Rules`: parse each selector
string with `parser.ParseMetricSelector`, stopping at the first failure. -/
def parseMatcherSets (parse : String → Except String (List Matcher)) :
    List String → Except String (List (List Matcher))
  | [] => .ok []
  | s :: rest =>
    match parse s with
    | .error e => .error e
    | .ok ms =>
      match parseMatcherSets parse rest with
      | .error e => .error e
      | .ok msets => .ok (ms :: msets)

/-- `GRPCClient.Rules` from rules.go. The fan-out collaborator `proxy`
(`rulespb.RulesServer.Rules`) is modelled as a function from the request and
the fresh sink to the sink state after all deliveries plus an optional total
failure; `parse` is the external selector compiler and `isLiteral` the
external template check. Errors carry the `errors.Wrap` message prefixes of
the source; an error return models the Go `return nil, nil, err` paths. -/
def GRPCClient.Rules (isLiteral : String → Bool)
    (proxy : RulesRequest → rulesServer → rulesServer × Option String)
    (parse : String → Except String (List Matcher))
    (rr : GRPCClient) (req : RulesRequest) :
    Except String (RuleGroups × List String) :=
  let resp0 : rulesServer := ⟨false, [], []⟩
  let (resp, proxyErr) := proxy req resp0
  match proxyErr with
  | some e => .error ("proxy Rules: " ++ e)
  | none =>
    match parseMatcherSets parse req.matcherString with
    | .error e => .error ("parser ParseMetricSelector: " ++ e)
    | .ok matcherSets =>
      let gs1 := filterRules isLiteral resp.groups matcherSets
      let gs2 := dedupGroups gs1
      let gs3 := gs2.map fun g => { g with rules := dedupRules g.rules rr.replicaLabels }
      .ok (⟨gs3⟩, resp.warnings)

/-- The concatenated rule sequences, in delivery order, of all groups in `gs`
bearing the name `n` (the merge result the specification describes). -/
def groupRulesFor (gs : List RuleGroup) (n : String) : List Rule :=
  ((gs.filter (fun h => h.name == n)).map (fun h => h.rules)).flatten

/-- Specification-side restatement of `dedupGroups`, following the spec's
words: one group per distinct name in first-seen delivery order, whose rule
sequence is the concatenation of the same-named input groups' rules in
delivery order. Stated separately so that the equality with `dedupGroups`
is a genuine theorem. -/
def dedupGroupsSpec : List RuleGroup → List RuleGroup
  | [] => []
  | g :: gs =>
    ⟨g.name, g.rules ++ groupRulesFor gs g.name⟩ ::
      dedupGroupsSpec (gs.filter (fun h => h.name != g.name))
termination_by l => l.length
decreasing_by
  simp only [List.length_cons]
  exact Nat.lt_succ_of_le (List.length_filter_le _ _)

/-- The effect of folding the remaining groups `gs` into an already-emitted
accumulator `acc`: each accumulator entry absorbs the rules of the later
same-named groups. Auxiliary device for the `dedupGroups` correctness proof. -/
def extendAcc (acc gs : List RuleGroup) : List RuleGroup :=
  acc.map fun h => ⟨h.name, h.rules ++ groupRulesFor gs h.name⟩

/-- C9: filterRules applied with an empty collection of MatcherSets is the
identity: every group and every rule is retained unchanged, in the same order. -/
theorem filterRules_empty_matcherSets (isLiteral : String → Bool) (gs : List RuleGroup) :
    filterRules isLiteral gs [] = gs := rfl

/-- C2 counterexample: a delivered RuleGroup carrying zero rules is not
rejected by `rulesServer.Send`; it is accumulated and the call succeeds. -/
theorem Send_accepts_zero_rule_group :
    rulesServer.Send ⟨false, [], []⟩ (.group ⟨"g1", []⟩)
      = .ok ⟨false, [], [⟨"g1", []⟩]⟩ := rfl

/-- C2 (amended): a delivered message carrying neither a warning nor a group
is rejected with error "no group", aborting the call; a delivered group is
accumulated regardless of its rule count. -/
theorem Send_rejects_missing_group (srv : rulesServer) (res : RulesResponse)
    (g : RuleGroup) (hw : res.getWarning = "") (hg : res.getGroup = none) :
    rulesServer.Send srv res = .error "no group" ∧
      rulesServer.Send srv (.group g) = .ok { srv with groups := srv.groups ++ [g] } := by
  refine ⟨?_, rfl⟩
  simp [rulesServer.Send, hw, hg]

/-- C2 witness for `Send_rejects_missing_group` at a concrete sink state,
message and group. -/
theorem Send_rejects_missing_group_witness :
    rulesServer.Send ⟨false, ["w"], []⟩ .empty = .error "no group" ∧
      rulesServer.Send ⟨false, ["w"], []⟩ (.group ⟨"g2", []⟩)
        = .ok { ctxDone := false, warnings := ["w"], groups := [] ++ [⟨"g2", []⟩] } :=
  Send_rejects_missing_group ⟨false, ["w"], []⟩ .empty ⟨"g2", []⟩ rfl rfl

/-- C4 counterexample: a group delivered after the call's context is done is
still accumulated — the groups are not left unchanged. -/
theorem Send_after_ctx_done_still_accumulates :
    rulesServer.Send ⟨true, [], []⟩ (.group ⟨"g1", [.alert ⟨[], "A"⟩]⟩)
      = .ok ⟨true, [], [⟨"g1", [.alert ⟨[], "A"⟩]⟩]⟩ ∧
    (⟨true, [], [⟨"g1", [.alert ⟨[], "A"⟩]⟩]⟩ : rulesServer) ≠ ⟨true, [], []⟩ :=
  ⟨rfl, by decide⟩

/-- C4 (amended): `rulesServer.Send` never consults the context: a delivery
with the context done is processed exactly as the same delivery with the
context live — warnings and groups are still accumulated, well-formed
deliveries succeed, and only a message with no group and no warning faults. -/
theorem Send_ignores_context (w : List String) (gs : List RuleGroup) (res : RulesResponse) :
    rulesServer.Send ⟨true, w, gs⟩ res =
      (rulesServer.Send ⟨false, w, gs⟩ res).map (fun s => ⟨true, s.warnings, s.groups⟩) := by
  cases res with
  | group g => rfl
  | empty => rfl
  | warning w' =>
    by_cases h : w' = ""
    · subst h; rfl
    · simp [rulesServer.Send, RulesResponse.getWarning, h, Except.map]

/-- C3 counterexample: with a malformed selector in the request, the call does
not fail with the selector-compilation error: the fan-out collaborator is
consulted first, and its failure is what the call reports. -/
theorem Rules_consults_proxy_before_selectors :
    GRPCClient.Rules (fun _ => true) (fun _ s => (s, some "boom"))
        (fun _ => .error "bad selector") ⟨[]⟩ ⟨["bad"]⟩
      = .error "proxy Rules: boom" ∧
    GRPCClient.Rules (fun _ => true) (fun _ s => (s, some "boom"))
        (fun _ => .error "bad selector") ⟨[]⟩ ⟨["bad"]⟩
      ≠ .error ("parser ParseMetricSelector: " ++ "bad selector") := by
  refine ⟨rfl, ?_⟩
  intro h
  rw [show GRPCClient.Rules (fun _ => true) (fun _ s => (s, some "boom"))
      (fun _ => .error "bad selector") ⟨[]⟩ ⟨["bad"]⟩ = .error "proxy Rules: boom" from rfl] at h
  simp at h

/-- C3 (amended): the fan-out collaborator is invoked first; when it returns
without error and some selector string fails to compile, the call fails with
the wrapped selector-compilation error and returns no partial result (the
error return carries neither groups nor warnings). -/
theorem Rules_selector_error_after_proxy (isLiteral : String → Bool)
    (proxy : RulesRequest → rulesServer → rulesServer × Option String)
    (parse : String → Except String (List Matcher))
    (rr : GRPCClient) (req : RulesRequest) (st : rulesServer) (e : String)
    (hp : proxy req ⟨false, [], []⟩ = (st, none))
    (he : parseMatcherSets parse req.matcherString = .error e) :
    GRPCClient.Rules isLiteral proxy parse rr req
      = .error ("parser ParseMetricSelector: " ++ e) := by
  simp only [GRPCClient.Rules]
  rw [hp]
  simp [he]

/-- C3 witness for `Rules_selector_error_after_proxy` at a concrete parser,
proxy and request. -/
theorem Rules_selector_error_after_proxy_witness :
    GRPCClient.Rules (fun _ => true) (fun _ s => (s, none))
        (fun _ => .error "bad selector") ⟨["r"]⟩ ⟨["x"]⟩
      = .error ("parser ParseMetricSelector: " ++ "bad selector") :=
  Rules_selector_error_after_proxy (fun _ => true) (fun _ s => (s, none))
    (fun _ => .error "bad selector") ⟨["r"]⟩ ⟨["x"]⟩ ⟨false, [], []⟩ "bad selector" rfl rfl

/-- C10: whenever the fan-out collaborator reports an error, `GRPCClient.Rules`
returns the wrapped error and nothing else: whatever warnings and groups the
sink accumulated before the failure are discarded, not surfaced. -/
theorem Rules_discards_accumulated_on_proxy_error (isLiteral : String → Bool)
    (proxy : RulesRequest → rulesServer → rulesServer × Option String)
    (parse : String → Except String (List Matcher))
    (rr : GRPCClient) (req : RulesRequest) (e : String)
    (h : (proxy req ⟨false, [], []⟩).2 = some e) :
    GRPCClient.Rules isLiteral proxy parse rr req = .error ("proxy Rules: " ++ e) := by
  simp only [GRPCClient.Rules]
  rcases hp : proxy req ⟨false, [], []⟩ with ⟨st, pe⟩
  rw [hp] at h
  simp only at h
  subst h
  rfl

/-- C10 witness for `Rules_discards_accumulated_on_proxy_error`: a proxy that
accumulates a warning and a group before failing; the call still returns only
the wrapped error. -/
theorem Rules_discards_accumulated_on_proxy_error_witness :
    GRPCClient.Rules (fun _ => true)
        (fun _ s => (⟨s.ctxDone, s.warnings ++ ["w1"], s.groups ++ [⟨"g1", [.alert ⟨[], "A"⟩]⟩]⟩,
          some "boom"))
        (fun _ => .ok []) ⟨["replica"]⟩ ⟨[]⟩
      = .error ("proxy Rules: " ++ "boom") :=
  Rules_discards_accumulated_on_proxy_error (fun _ => true)
    (fun _ s => (⟨s.ctxDone, s.warnings ++ ["w1"], s.groups ++ [⟨"g1", [.alert ⟨[], "A"⟩]⟩]⟩,
      some "boom"))
    (fun _ => .ok []) ⟨["replica"]⟩ ⟨[]⟩ "boom" rfl

/-- C5: with a non-empty collection of matcher sets, a rule's labels satisfy
`matchesLabels` iff every matcher in every supplied set accepts the value that
the rule's literal label subset assigns to the matcher's name (the empty
string when the name is absent from that subset, `labelsGet`); and a rule is
retained in a group by the per-group filter exactly when it satisfies
`matchesLabels`. `isLiteral` abstracts "the value parses as a label template
with a single static text node". -/
theorem matchesLabels_iff (isLiteral : String → Bool) (matcherSets : List (List Matcher))
    (r : Rule) (g : RuleGroup) (h : matcherSets ≠ []) :
    (matchesLabels isLiteral matcherSets r.getLabels = true ↔
      ∀ ms ∈ matcherSets, ∀ m ∈ ms,
        m.matchFn
          (labelsGet (r.getLabels.filter (fun lb => isLiteral lb.value)) m.name) = true) ∧
    (r ∈ (shrinkGroup isLiteral matcherSets g).rules ↔
      r ∈ g.rules ∧ matchesLabels isLiteral matcherSets r.getLabels = true) := by
  constructor
  · simp only [matchesLabels]
    rw [if_neg (by simp [h])]
    simp [List.all_eq_true]
  · simp [shrinkGroup, List.mem_filter]

/-- C5 witness for `matchesLabels_iff` at a concrete matcher, rule and group. -/
theorem matchesLabels_iff_witness :
    matchesLabels (fun _ => true) [[⟨"job", fun v => v == "a"⟩]] [⟨"job", "a"⟩] = true :=
  ((matchesLabels_iff (fun _ => true) [[⟨"job", fun v => v == "a"⟩]]
      (Rule.alert ⟨[⟨"job", "a"⟩], "A"⟩) ⟨"g", []⟩ (by simp)).1).mpr
    (by
      intro ms hms m hm
      simp only [List.mem_singleton] at hms
      subst hms
      simp only [List.mem_singleton] at hm
      subst hm
      decide)

/-- A filterMap that maps each element and keeps the result unless a predicate
rejects it is the filter of the mapped list (the shape of the group-level
compaction in `filterRules`). -/
theorem filterMap_if_eq_filter_map {α β : Type} (f : α → β) (p : β → Bool) :
    ∀ l : List α,
      (l.filterMap fun a => if p (f a) then none else some (f a))
        = (l.map f).filter (fun b => !p b) := by
  intro l
  induction l with
  | nil => rfl
  | cons a t ih =>
    simp only [List.filterMap_cons, List.map_cons, List.filter_cons]
    cases hp : p (f a) <;> simp [hp, ih]

/-- C8: with a non-empty collection of matcher sets, `filterRules` keeps the
surviving groups in input order (the output is a sublist of the shrunken
input), each group's retained rules are a sublist of that group's input rules,
every surviving group retains at least one rule, and the total rule count
never increases. -/
theorem filterRules_shrinks (isLiteral : String → Bool)
    (matcherSets : List (List Matcher)) (gs : List RuleGroup)
    (h : matcherSets ≠ []) :
    (filterRules isLiteral gs matcherSets).Sublist
        (gs.map (shrinkGroup isLiteral matcherSets)) ∧
    (∀ g ∈ gs, (shrinkGroup isLiteral matcherSets g).rules.Sublist g.rules) ∧
    (∀ g ∈ filterRules isLiteral gs matcherSets, g.rules ≠ []) ∧
    countRules (filterRules isLiteral gs matcherSets) ≤ countRules gs := by
  have heq : filterRules isLiteral gs matcherSets
      = (gs.map (shrinkGroup isLiteral matcherSets)).filter (fun g => !g.rules.isEmpty) := by
    unfold filterRules
    rw [if_neg (by simp [h])]
    exact filterMap_if_eq_filter_map (shrinkGroup isLiteral matcherSets)
      (fun g => g.rules.isEmpty) gs
  refine ⟨?_, ?_, ?_, ?_⟩
  · rw [heq]
    exact List.filter_sublist _
  · intro g _
    exact List.filter_sublist _
  · intro g hg
    rw [heq] at hg
    have h2 := (List.mem_filter.mp hg).2
    simpa [List.isEmpty_eq_false] using h2
  · have h1 : countRules (filterRules isLiteral gs matcherSets)
        ≤ countRules (gs.map (shrinkGroup isLiteral matcherSets)) := by
      unfold countRules
      refine List.Sublist.sum_le_sum ?_ (fun a _ => Nat.zero_le a)
      exact List.Sublist.map _ (by rw [heq]; exact List.filter_sublist _)
    have h2 : countRules (gs.map (shrinkGroup isLiteral matcherSets)) ≤ countRules gs := by
      unfold countRules
      rw [List.map_map]
      refine List.sum_le_sum ?_
      intro g _
      simpa [shrinkGroup] using List.length_filter_le _ g.rules
    exact le_trans h1 h2

/-- C8 witness for `filterRules_shrinks` at a concrete matcher set and group
list. -/
theorem filterRules_shrinks_witness :
    (filterRules (fun _ => true)
        [⟨"g1", [.alert ⟨[⟨"job", "a"⟩], "A"⟩, .alert ⟨[⟨"job", "b"⟩], "B"⟩]⟩,
         ⟨"g2", [.alert ⟨[⟨"job", "b"⟩], "B"⟩]⟩]
        [[⟨"job", fun v => v == "a"⟩]]).Sublist
      ([⟨"g1", [.alert ⟨[⟨"job", "a"⟩], "A"⟩, .alert ⟨[⟨"job", "b"⟩], "B"⟩]⟩,
        ⟨"g2", [.alert ⟨[⟨"job", "b"⟩], "B"⟩]⟩].map
        (shrinkGroup (fun _ => true) [[⟨"job", fun v => v == "a"⟩]])) ∧
    (∀ g ∈ [⟨"g1", [.alert ⟨[⟨"job", "a"⟩], "A"⟩, .alert ⟨[⟨"job", "b"⟩], "B"⟩]⟩,
        (⟨"g2", [.alert ⟨[⟨"job", "b"⟩], "B"⟩]⟩ : RuleGroup)],
      (shrinkGroup (fun _ => true) [[⟨"job", fun v => v == "a"⟩]] g).rules.Sublist g.rules) ∧
    (∀ g ∈ filterRules (fun _ => true)
        [⟨"g1", [.alert ⟨[⟨"job", "a"⟩], "A"⟩, .alert ⟨[⟨"job", "b"⟩], "B"⟩]⟩,
         ⟨"g2", [.alert ⟨[⟨"job", "b"⟩], "B"⟩]⟩]
        [[⟨"job", fun v => v == "a"⟩]], g.rules ≠ []) ∧
    countRules (filterRules (fun _ => true)
        [⟨"g1", [.alert ⟨[⟨"job", "a"⟩], "A"⟩, .alert ⟨[⟨"job", "b"⟩], "B"⟩]⟩,
         ⟨"g2", [.alert ⟨[⟨"job", "b"⟩], "B"⟩]⟩]
        [[⟨"job", fun v => v == "a"⟩]])
      ≤ countRules
        [⟨"g1", [.alert ⟨[⟨"job", "a"⟩], "A"⟩, .alert ⟨[⟨"job", "b"⟩], "B"⟩]⟩,
         ⟨"g2", [.alert ⟨[⟨"job", "b"⟩], "B"⟩]⟩] :=
  filterRules_shrinks (fun _ => true) [[⟨"job", fun v => v == "a"⟩]]
    [⟨"g1", [.alert ⟨[⟨"job", "a"⟩], "A"⟩, .alert ⟨[⟨"job", "b"⟩], "B"⟩]⟩,
     ⟨"g2", [.alert ⟨[⟨"job", "b"⟩], "B"⟩]⟩] (by simp)

/-- `charListLt` is asymmetric. -/
theorem charListLt_asymm : ∀ as bs, charListLt as bs = true → charListLt bs as = false := by
  intro as
  induction as with
  | nil =>
    intro bs h
    cases bs with
    | nil => simp [charListLt] at h
    | cons b t => rfl
  | cons a as' ih =>
    intro bs h
    cases bs with
    | nil => simp [charListLt] at h
    | cons b bs' =>
      unfold charListLt at h ⊢
      by_cases hab : a < b
      · rw [if_neg (lt_asymm hab), if_pos hab]
      · rw [if_neg hab] at h
        by_cases hba : b < a
        · rw [if_pos hba] at h
          exact absurd h (by simp)
        · rw [if_neg hba] at h
          rw [if_neg hba, if_neg hab]
          exact ih bs' h

/-- Non-strict comparison (`charListLt = false`) is transitive. -/
theorem charListLt_false_trans :
    ∀ as bs cs, charListLt as bs = false → charListLt bs cs = false →
      charListLt as cs = false := by
  intro as
  induction as with
  | nil =>
    intro bs cs h1 h2
    cases cs with
    | nil => rfl
    | cons c cs' =>
      cases bs with
      | nil => simp [charListLt] at h2
      | cons b bs' => simp [charListLt] at h1
  | cons a as' ih =>
    intro bs cs h1 h2
    cases cs with
    | nil => rfl
    | cons c cs' =>
      cases bs with
      | nil => simp [charListLt] at h2
      | cons b bs' =>
        unfold charListLt at h1 h2 ⊢
        by_cases hab : a < b
        · rw [if_pos hab] at h1
          exact absurd h1 (by simp)
        · rw [if_neg hab] at h1
          by_cases hbc : b < c
          · rw [if_pos hbc] at h2
            exact absurd h2 (by simp)
          · rw [if_neg hbc] at h2
            by_cases hac : a < c
            · exact absurd (lt_of_lt_of_le hac (le_trans (not_lt.mp hbc) (not_lt.mp hab)))
                (lt_irrefl a)
            · rw [if_neg hac]
              by_cases hca : c < a
              · rw [if_pos hca]
              · rw [if_neg hca]
                by_cases hba : b < a
                · exact absurd (lt_of_le_of_lt (not_lt.mp hbc) hba) hca
                · rw [if_neg hba] at h1
                  by_cases hcb : c < b
                  · exact absurd (lt_of_lt_of_le hcb (not_lt.mp hab)) hca
                  · rw [if_neg hcb] at h2
                    exact ih bs' cs' h1 h2

/-- `nameLt` is asymmetric. -/
theorem nameLt_asymm (s t : String) (h : nameLt s t = true) : nameLt t s = false :=
  charListLt_asymm _ _ h

/-- Non-strict `nameLt = false` is transitive. -/
theorem nameLt_false_trans (s t u : String) (h1 : nameLt s t = false)
    (h2 : nameLt t u = false) : nameLt s u = false :=
  charListLt_false_trans _ _ _ h1 h2

/-- Membership is preserved by `insertLabel`. -/
theorem mem_insertLabel (a x : Label) :
    ∀ l : List Label, x ∈ insertLabel a l ↔ x = a ∨ x ∈ l := by
  intro l
  induction l with
  | nil => simp [insertLabel]
  | cons b t ih =>
    unfold insertLabel
    by_cases h : nameLt b.name a.name
    · rw [if_pos h]
      simp only [List.mem_cons, ih]
      tauto
    · rw [if_neg h]
      simp [List.mem_cons]

/-- Membership is preserved by `sortLabels`. -/
theorem mem_sortLabels (x : Label) : ∀ l : List Label, x ∈ sortLabels l ↔ x ∈ l := by
  intro l
  induction l with
  | nil => simp [sortLabels]
  | cons a t ih =>
    unfold sortLabels
    rw [mem_insertLabel, ih]
    simp [List.mem_cons]

/-- `insertLabel` preserves weak sortedness by name. -/
theorem sorted_insertLabel (a : Label) :
    ∀ l : List Label, l.Pairwise (fun p q => nameLt q.name p.name = false) →
      (insertLabel a l).Pairwise (fun p q => nameLt q.name p.name = false) := by
  intro l
  induction l with
  | nil =>
    intro _
    simp [insertLabel]
  | cons b t ih =>
    intro hl
    rcases List.pairwise_cons.mp hl with ⟨hb, ht⟩
    unfold insertLabel
    by_cases h : nameLt b.name a.name
    · rw [if_pos h]
      refine List.pairwise_cons.mpr ⟨?_, ih ht⟩
      intro y hy
      rcases (mem_insertLabel a y t).mp hy with rfl | hyt
      · exact nameLt_asymm _ _ h
      · exact hb y hyt
    · rw [if_neg h]
      refine List.pairwise_cons.mpr ⟨?_, hl⟩
      intro y hy
      rcases List.mem_cons.mp hy with rfl | hyt
      · simpa using h
      · exact nameLt_false_trans _ _ _ (hb y hyt) (by simpa using h)

/-- `sortLabels` produces a list weakly sorted by name. -/
theorem sorted_sortLabels :
    ∀ l : List Label, (sortLabels l).Pairwise (fun p q => nameLt q.name p.name = false) := by
  intro l
  induction l with
  | nil => simp [sortLabels]
  | cons a t ih => exact sorted_insertLabel a _ ih

/-- `sortLabels` leaves a weakly sorted list unchanged (the fixed-point
property of the Go sort on already-sorted input). -/
theorem sortLabels_of_sorted :
    ∀ l : List Label, l.Pairwise (fun p q => nameLt q.name p.name = false) →
      sortLabels l = l := by
  intro l
  induction l with
  | nil => intro _; rfl
  | cons a t ih =>
    intro h
    rcases List.pairwise_cons.mp h with ⟨ha, ht⟩
    unfold sortLabels
    rw [ih ht]
    cases t with
    | nil => rfl
    | cons b u =>
      unfold insertLabel
      rw [if_neg (by simp [ha b (List.mem_cons_self b u)])]

/-- Sorting is idempotent. -/
theorem sortLabels_idem (l : List Label) : sortLabels (sortLabels l) = sortLabels l :=
  sortLabels_of_sorted _ (sorted_sortLabels l)

/-- Computation of the normalisation on an alerting rule. -/
theorem normalizeRule_alert (L : List String) (ls : List Label) (d : String) :
    normalizeRule L (.alert ⟨ls, d⟩)
      = .alert ⟨sortLabels (ls.filter (fun l => !L.contains l.name)), d⟩ := rfl

/-- Computation of the normalisation on a recording rule. -/
theorem normalizeRule_recording (L : List String) (ls : List Label) (d : String) :
    normalizeRule L (.recording ⟨ls, d⟩)
      = .recording ⟨sortLabels (ls.filter (fun l => !L.contains l.name)), d⟩ := rfl

/-- The per-rule normalisation of `dedupRules` is idempotent: a second pass
finds no replica labels left to remove and an already-sorted label list. -/
theorem normalizeRule_idem (L : List String) (r : Rule) :
    normalizeRule L (normalizeRule L r) = normalizeRule L r := by
  have key : ∀ ls : List Label,
      sortLabels ((sortLabels (ls.filter (fun l => !L.contains l.name))).filter
          (fun l => !L.contains l.name))
        = sortLabels (ls.filter (fun l => !L.contains l.name)) := by
    intro ls
    have hf : (sortLabels (ls.filter (fun l => !L.contains l.name))).filter
        (fun l => !L.contains l.name) = sortLabels (ls.filter (fun l => !L.contains l.name)) := by
      refine List.filter_eq_self.mpr ?_
      intro x hx
      exact (List.mem_filter.mp ((mem_sortLabels x _).mp hx)).2
    rw [hf, sortLabels_idem]
  cases r with
  | alert a =>
    cases a with
    | mk ls d =>
      rw [normalizeRule_alert, normalizeRule_alert, key]
  | recording rec =>
    cases rec with
    | mk ls d =>
      rw [normalizeRule_recording, normalizeRule_recording, key]

/-- Every branch of the `dedupRules` loop body appends the current rule to the
accumulator (this is exactly the discrepancy recorded in the specification's
design notes: the Equal-duplicate branch does not drop the rule). -/
theorem dedupStep_snd (st : List (String × Rule) × List Rule) (r : Rule) :
    (dedupStep st r).2 = st.2 ++ [r] := by
  rcases st with ⟨seen, acc⟩
  cases h : lookupRule seen (ruleString r) with
  | none => simp [dedupStep, h]
  | some existing =>
    by_cases h1 : recordingDiffers existing r
    · simp [dedupStep, h, h1]
    · by_cases h2 : alertDiffers existing r
      · simp [dedupStep, h, h1, h2]
      · simp [dedupStep, h, h1, h2]

/-- The accumulator of the full `dedupRules` walk is the input appended to the
starting accumulator, whatever the seen-map. -/
theorem foldl_dedupStep_snd :
    ∀ (rs : List Rule) (st : List (String × Rule) × List Rule),
      (rs.foldl dedupStep st).2 = st.2 ++ rs := by
  intro rs
  induction rs with
  | nil => intro st; simp
  | cons r t ih =>
    intro st
    rw [List.foldl_cons, ih, dedupStep_snd]
    simp

/-- `dedupRules` never drops a rule: it returns the input rules normalised
(replica labels removed, labels sorted by name), in order. -/
theorem dedupRules_eq_map (rs : List Rule) (L : List String) :
    dedupRules rs L = rs.map (normalizeRule L) := by
  cases rs with
  | nil => rfl
  | cons r t =>
    unfold dedupRules
    rw [if_neg (by simp)]
    rw [foldl_dedupStep_snd]
    rfl

/-- C6: dedupRules is idempotent: applying it twice with the same replica
label set gives the same result as applying it once. -/
theorem dedupRules_idempotent (rs : List Rule) (L : List String) :
    dedupRules (dedupRules rs L) L = dedupRules rs L := by
  rw [dedupRules_eq_map, dedupRules_eq_map, List.map_map]
  exact List.map_congr_left (fun r _ => normalizeRule_idem L r)

/-- C1 (code-bug evidence): on two alert rules identical except for the value
of the `replica` label, with `replica` configured as replica label and the
normalised alert payloads comparing Equal, `dedupRules` keeps both rules (two
identical entries) instead of dropping the duplicate: every branch of its walk
appends the rule, so the Equal case is never dropped. -/
theorem dedupRules_keeps_equal_duplicate :
    Alert.Compare ⟨[⟨"alertname", "Up"⟩], "A"⟩ ⟨[⟨"alertname", "Up"⟩], "A"⟩ = 0 ∧
    dedupRules
        [.alert ⟨[⟨"alertname", "Up"⟩, ⟨"replica", "0"⟩], "A"⟩,
         .alert ⟨[⟨"alertname", "Up"⟩, ⟨"replica", "1"⟩], "A"⟩] ["replica"]
      = [.alert ⟨[⟨"alertname", "Up"⟩], "A"⟩, .alert ⟨[⟨"alertname", "Up"⟩], "A"⟩] ∧
    (dedupRules
        [.alert ⟨[⟨"alertname", "Up"⟩, ⟨"replica", "0"⟩], "A"⟩,
         .alert ⟨[⟨"alertname", "Up"⟩, ⟨"replica", "1"⟩], "A"⟩] ["replica"]).length = 2 := by
  refine ⟨by decide, by decide, by decide⟩

/-- String disequality test is symmetric. -/
theorem bne_comm_str (a b : String) : (a != b) = (b != a) := by
  by_cases e : a = b
  · simp [e]
  · have e' : ¬ b = a := fun h => e h.symm
    simp [bne, beq_eq_false_iff_ne.mpr e, beq_eq_false_iff_ne.mpr e']

/-- An existence test over group names factors through the name projection. -/
theorem any_map_name (l : List RuleGroup) (p : String → Bool) :
    (l.map RuleGroup.name).any p = l.any (fun h => p h.name) := by
  induction l with
  | nil => rfl
  | cons a t ih => simp [List.any_cons, ih]

/-- `appendRules` never changes the sequence of group names. -/
theorem appendRules_map_name (acc : List RuleGroup) (n : String) (rs : List Rule) :
    (appendRules acc n rs).map RuleGroup.name = acc.map RuleGroup.name := by
  induction acc with
  | nil => rfl
  | cons h t ih =>
    unfold appendRules
    by_cases hn : (h.name == n) = true
    · rw [if_pos hn]
      rfl
    · rw [if_neg hn]
      simp [ih]

/-- Extending an accumulator by no further groups is the identity. -/
theorem extendAcc_nil (acc : List RuleGroup) : extendAcc acc [] = acc := by
  unfold extendAcc
  have h1 : ∀ h : RuleGroup,
      (⟨h.name, h.rules ++ groupRulesFor [] h.name⟩ : RuleGroup) = h := by
    intro h
    simp [groupRulesFor]
  calc acc.map (fun h => ⟨h.name, h.rules ++ groupRulesFor [] h.name⟩)
      = acc.map (fun h => h) := List.map_congr_left (fun h _ => h1 h)
    _ = acc := List.map_id acc

/-- A leading group whose name appears nowhere in the accumulator contributes
nothing to the accumulator's extension. -/
theorem extendAcc_cons_not_named (acc : List RuleGroup) (g : RuleGroup)
    (gs : List RuleGroup) (hne : ∀ h ∈ acc, (h.name == g.name) = false) :
    extendAcc acc (g :: gs) = extendAcc acc gs := by
  unfold extendAcc
  refine List.map_congr_left ?_
  intro h hh
  have hgn : (g.name == h.name) = false := by
    refine beq_eq_false_iff_ne.mpr ?_
    intro e
    exact absurd (beq_eq_false_iff_ne.mp (hne h hh)) (fun c => c e.symm)
  have : groupRulesFor (g :: gs) h.name = groupRulesFor gs h.name := by
    unfold groupRulesFor
    rw [List.filter_cons, if_neg (by simp [hgn])]
  rw [this]

/-- Folding later rules into the accumulator entry carrying their name, then
extending by the remaining groups, is the same as extending by the group
itself followed by the remaining groups. -/
theorem extendAcc_appendRules :
    ∀ (acc : List RuleGroup) (n : String) (rs : List Rule) (gs : List RuleGroup),
      (acc.map RuleGroup.name).Nodup → acc.any (fun h => h.name == n) = true →
      extendAcc (appendRules acc n rs) gs = extendAcc acc (⟨n, rs⟩ :: gs) := by
  intro acc
  induction acc with
  | nil =>
    intro n rs gs _ hany
    simp at hany
  | cons a t ih =>
    intro n rs gs hnodup hany
    by_cases hn : (a.name == n) = true
    · have ha : a.name = n := beq_iff_eq.mp hn
      have hhead : groupRulesFor (⟨n, rs⟩ :: gs) a.name = rs ++ groupRulesFor gs a.name := by
        unfold groupRulesFor
        rw [List.filter_cons, if_pos (by simp [ha])]
        simp
      have htail : ∀ h ∈ t, groupRulesFor (⟨n, rs⟩ :: gs) h.name = groupRulesFor gs h.name := by
        intro h hh
        have hnin : a.name ∉ t.map RuleGroup.name := (List.nodup_cons.mp hnodup).1
        have hna : (n == h.name) = false := by
          refine beq_eq_false_iff_ne.mpr ?_
          intro e
          apply hnin
          have hm : h.name ∈ t.map RuleGroup.name := List.mem_map_of_mem _ hh
          rw [← e, ← ha] at hm
          exact hm
        unfold groupRulesFor
        rw [List.filter_cons, if_neg (by simp [hna])]
      show extendAcc (appendRules (a :: t) n rs) gs = extendAcc (a :: t) (⟨n, rs⟩ :: gs)
      unfold appendRules
      rw [if_pos hn]
      unfold extendAcc
      simp only [List.map_cons]
      congr 1
      · show (⟨a.name, (a.rules ++ rs) ++ groupRulesFor gs a.name⟩ : RuleGroup)
            = ⟨a.name, a.rules ++ groupRulesFor (⟨n, rs⟩ :: gs) a.name⟩
        rw [hhead, List.append_assoc]
      · exact List.map_congr_left (fun h hh => by rw [htail h hh])
    · have hany' : t.any (fun h => h.name == n) = true := by
        rw [List.any_cons] at hany
        rcases Bool.or_eq_true_iff.mp hany with h | h
        · exact absurd h hn
        · exact h
      have hhead : groupRulesFor (⟨n, rs⟩ :: gs) a.name = groupRulesFor gs a.name := by
        have hna : (n == a.name) = false := by
          refine beq_eq_false_iff_ne.mpr ?_
          intro e
          exact hn (beq_iff_eq.mpr e.symm)
        unfold groupRulesFor
        rw [List.filter_cons, if_neg (by simp [hna])]
      show extendAcc (appendRules (a :: t) n rs) gs = extendAcc (a :: t) (⟨n, rs⟩ :: gs)
      unfold appendRules
      rw [if_neg hn]
      show extendAcc (a :: appendRules t n rs) gs = extendAcc (a :: t) (⟨n, rs⟩ :: gs)
      unfold extendAcc
      simp only [List.map_cons]
      congr 1
      · rw [hhead]
      · exact ih n rs gs (List.nodup_cons.mp hnodup).2 hany'

/-- Characterisation of the `dedupGroups` fold from an arbitrary accumulator
with distinct names: the accumulator entries absorb the rules of the later
same-named groups, and the remaining fresh-named groups are merged as in the
specification-side recursion. -/
theorem foldl_insertGroupAcc :
    ∀ (gs acc : List RuleGroup), (acc.map RuleGroup.name).Nodup →
      gs.foldl insertGroupAcc acc
        = extendAcc acc gs
          ++ dedupGroupsSpec (gs.filter (fun g => !acc.any (fun h => h.name == g.name))) := by
  intro gs
  induction gs with
  | nil =>
    intro acc _
    rw [List.foldl_nil, extendAcc_nil]
    simp [dedupGroupsSpec]
  | cons g rest ih =>
    intro acc hnodup
    rw [List.foldl_cons]
    by_cases hany : acc.any (fun h => h.name == g.name) = true
    · have hstep : insertGroupAcc acc g = appendRules acc g.name g.rules := by
        unfold insertGroupAcc
        rw [if_pos hany]
      rw [hstep]
      rw [ih (appendRules acc g.name g.rules) (by rw [appendRules_map_name]; exact hnodup)]
      have hc : ∀ x : RuleGroup,
          (appendRules acc g.name g.rules).any (fun h => h.name == x.name)
            = acc.any (fun h => h.name == x.name) := by
        intro x
        have h1 : ((appendRules acc g.name g.rules).map RuleGroup.name).any
              (fun nm => nm == x.name)
            = (acc.map RuleGroup.name).any (fun nm => nm == x.name) := by
          rw [appendRules_map_name]
        rw [any_map_name, any_map_name] at h1
        exact h1
      have hfilter : rest.filter
            (fun x => !(appendRules acc g.name g.rules).any (fun h => h.name == x.name))
          = rest.filter (fun x => !acc.any (fun h => h.name == x.name)) :=
        List.filter_congr (fun x _ => by rw [hc x])
      rw [hfilter]
      rw [extendAcc_appendRules acc g.name g.rules rest hnodup hany]
      conv_rhs => rw [List.filter_cons]
      rw [if_neg (by simp [hany])]
    · have hanyf : acc.any (fun h => h.name == g.name) = false := by
        simpa using hany
      have hne : ∀ h ∈ acc, (h.name == g.name) = false := by
        intro h hh
        have := List.any_eq_false.mp hanyf h hh
        simpa using this
      have hstep : insertGroupAcc acc g = acc ++ [g] := by
        unfold insertGroupAcc
        rw [if_neg hany]
      rw [hstep]
      have hnodup' : ((acc ++ [g]).map RuleGroup.name).Nodup := by
        rw [List.map_append]
        refine List.nodup_append.mpr ⟨hnodup, by simp, ?_⟩
        intro x hx hx2
        simp only [List.map_cons, List.map_nil, List.mem_singleton] at hx2
        subst hx2
        rcases List.mem_map.mp hx with ⟨h, hh, hhn⟩
        exact absurd (beq_iff_eq.mpr hhn) (by simp [hne h hh])
      rw [ih (acc ++ [g]) hnodup']
      have hA : extendAcc (acc ++ [g]) rest
          = extendAcc acc rest ++ [⟨g.name, g.rules ++ groupRulesFor rest g.name⟩] := by
        unfold extendAcc
        rw [List.map_append]
        rfl
      have hB : extendAcc acc (g :: rest) = extendAcc acc rest :=
        extendAcc_cons_not_named acc g rest hne
      have hC : (g :: rest).filter (fun x => !acc.any (fun h => h.name == x.name))
          = g :: rest.filter (fun x => !acc.any (fun h => h.name == x.name)) := by
        rw [List.filter_cons, if_pos (by simp [hanyf])]
      have hE : groupRulesFor
            (rest.filter (fun x => !acc.any (fun h => h.name == x.name))) g.name
          = groupRulesFor rest g.name := by
        unfold groupRulesFor
        rw [List.filter_filter]
        refine congrArg List.flatten (congrArg (List.map _) ?_)
        refine List.filter_congr ?_
        intro x _
        by_cases e : x.name = g.name
        · have hax : acc.any (fun h => h.name == x.name) = false := by
            rw [e]
            exact hanyf
          simp [e]
          intro h hh
          exact beq_eq_false_iff_ne.mp (hne h hh)
        · have hxf : (x.name == g.name) = false := beq_eq_false_iff_ne.mpr e
          simp [hxf]
      have hF : rest.filter (fun x => !(acc ++ [g]).any (fun h => h.name == x.name))
          = (rest.filter (fun x => !acc.any (fun h => h.name == x.name))).filter
              (fun x => x.name != g.name) := by
        rw [List.filter_filter]
        refine List.filter_congr ?_
        intro x _
        rw [List.any_append]
        have hB1 : ([g].any (fun h => h.name == x.name)) = (g.name == x.name) := by
          simp [List.any_cons]
        rw [hB1, Bool.not_or, Bool.and_comm]
        congr 1
        rw [show (x.name != g.name) = (g.name != x.name) from bne_comm_str _ _]
        rfl
      rw [hA, hB, hC]
      rw [dedupGroupsSpec]
      rw [hE, ← hF, List.append_assoc]
      rfl

/-- C7: `dedupGroups` returns exactly one group per distinct name, in
first-seen delivery order, each carrying the concatenation, in delivery order,
of the rule sequences of all input groups bearing that name, with no
rule-level deduplication — the recursion `dedupGroupsSpec` states exactly
this, and `dedupGroups` equals it. -/
theorem dedupGroups_eq_spec (gs : List RuleGroup) : dedupGroups gs = dedupGroupsSpec gs := by
  cases gs with
  | nil => simp [dedupGroups, dedupGroupsSpec]
  | cons g rest =>
    unfold dedupGroups
    rw [if_neg (by simp)]
    rw [foldl_insertGroupAcc (g :: rest) [] (by simp)]
    have h1 : extendAcc [] (g :: rest) = [] := rfl
    have h2 : (g :: rest).filter
          (fun x => !([] : List RuleGroup).any (fun h => h.name == x.name))
        = g :: rest := by
      refine List.filter_eq_self.mpr ?_
      intro x _
      simp
    rw [h1, h2, List.nil_append]
